import Mathlib

/-!
Shallow embedding of the `md_reader` markdown viewer (src/viewer.py,
src/storage.py): the inline tokenizer, the line-scanning renderer,
the structured (mistune AST) renderer, the application-level document
loop, and the folder pack/unpack helpers, together with theorems
settling the specification claims.

Strings from the Python source are modelled as `List Char`; the tkinter
text widget is modelled by the ordered list of operations performed on
it (`WInstr`) plus a running character position; the module-global
`link_callbacks` dictionary and the per-application image cache are
modelled by `RState`, threaded explicitly.
-/

/-- Shorthand: a Python string literal as a list of characters. -/
def cs (s : String) : List Char := s.toList

/-- The backtick character (written via its code point). -/
def btick : Char := Char.ofNat 96

/-- The newline character. -/
def nlc : Char := Char.ofNat 10

-- ============================================================
-- Inline Markdown Tokenizer (viewer.py, TokenType / tokenize_inline)
-- ============================================================

/-- `class TokenType(Enum)` from viewer.py. -/
inductive TokenType where
  | NORMAL
  | ITALIC
  | BOLD
  | BOLD_ITALIC
  | INLINE_CODE
  deriving DecidableEq, Repr

/-- Python `s.find(delim)` as a splitter: returns the characters before
the first occurrence of `delim` and the characters after it, or `none`
when `delim` does not occur in `s`. -/
def splitOnFirst (delim : List Char) : List Char → Option (List Char × List Char)
  | [] => if delim.isPrefixOf ([] : List Char) then some ([], []) else none
  | c :: rest =>
    if delim.isPrefixOf (c :: rest) then some ([], (c :: rest).drop delim.length)
    else (splitOnFirst delim rest).map (fun p => (c :: p.1, p.2))

/-- One delimiter rule of `tokenize_inline`: if `s` starts with `delim`
(`line.startswith(delim, i)`) and a matching close is found in the
remainder (`line.find(delim, i + len(delim)) != -1`), emit a token of
`kind` holding the text strictly between the delimiters and return the
characters after the closing delimiter. -/
def tryDelim (kind : TokenType) (delim : List Char) (s : List Char) :
    Option ((TokenType × List Char) × List Char) :=
  if delim.isPrefixOf s then
    (splitOnFirst delim (s.drop delim.length)).map (fun p => ((kind, p.1), p.2))
  else none

/-- One iteration of the `while` loop in `tokenize_inline`, trying the
delimiters in the source's fixed order: backtick, `***`, `**`, `*`.
`none` means no delimiter rule fired at this position. -/
def tokenizeStep (s : List Char) : Option ((TokenType × List Char) × List Char) :=
  tryDelim TokenType.INLINE_CODE [btick] s <|>
  tryDelim TokenType.BOLD_ITALIC (cs "***") s <|>
  tryDelim TokenType.BOLD (cs "**") s <|>
  tryDelim TokenType.ITALIC (cs "*") s

/-- The `while i < n` loop of `tokenize_inline`, with explicit fuel
(each iteration consumes at least one character, so `s.length` fuel is
always enough). -/
def tokenizeAux : Nat → List Char → List (TokenType × List Char)
  | 0, _ => []
  | _ + 1, [] => []
  | fuel + 1, c :: rest =>
    match tokenizeStep (c :: rest) with
    | some (tok, after) => tok :: tokenizeAux fuel after
    | none => (TokenType.NORMAL, [c]) :: tokenizeAux fuel rest

/-- `tokenize_inline(line)` from viewer.py. -/
def tokenize_inline (s : List Char) : List (TokenType × List Char) :=
  tokenizeAux s.length s

/-- Re-insert the delimiter characters a token consumed around its text:
backticks for INLINE_CODE, `***` for BOLD_ITALIC, `**` for BOLD, `*`
for ITALIC, nothing for NORMAL. -/
def tokenSource : TokenType × List Char → List Char
  | (TokenType.NORMAL, t) => t
  | (TokenType.ITALIC, t) => cs "*" ++ t ++ cs "*"
  | (TokenType.BOLD, t) => cs "**" ++ t ++ cs "**"
  | (TokenType.BOLD_ITALIC, t) => cs "***" ++ t ++ cs "***"
  | (TokenType.INLINE_CODE, t) => btick :: t ++ [btick]

/-- Concatenate the token texts with their original delimiters re-inserted. -/
def untokenize (toks : List (TokenType × List Char)) : List Char :=
  (toks.map tokenSource).flatten

-- ============================================================
-- Line classification helpers (render_markdown_raw)
-- ============================================================

/-- Python `line.strip()`: remove leading and trailing whitespace. -/
def pstrip (s : List Char) : List Char :=
  ((s.dropWhile Char.isWhitespace).reverse.dropWhile Char.isWhitespace).reverse

/-- `re.match(r"!\[.*?\]\((.*?)\)", stripped)`: anchored at the start,
`![`, then a lazy run up to the first `](`, then the lazy capture up to
the first `)`.  Returns the captured path. -/
def imgMatch (s : List Char) : Option (List Char) :=
  if (cs "![").isPrefixOf s then
    match splitOnFirst (cs "](") (s.drop 2) with
    | some (_, rest) =>
      match splitOnFirst (cs ")") rest with
      | some (cap, _) => some cap
      | none => none
    | none => none
  else none

/-- Leftmost match of `re.finditer(r"\[(.*?)\]\((.*?)\)", line)` on `s`:
returns `(before, text, url, after)` such that
`s = before ++ "[" ++ text ++ "](" ++ url ++ ")" ++ after`, with the
match chosen leftmost and the groups lazy (shortest). -/
def findFirstLink : List Char → Option (List Char × List Char × List Char × List Char)
  | [] => none
  | c :: rest =>
    let deeper := (findFirstLink rest).map (fun p => (c :: p.1, p.2.1, p.2.2.1, p.2.2.2))
    if c = '[' then
      match splitOnFirst (cs "](") rest with
      | some (txt, rest2) =>
        match splitOnFirst (cs ")") rest2 with
        | some (url, after) => some ([], txt, url, after)
        | none => deeper
      | none => deeper
    else deeper

-- ============================================================
-- Path resolution (os.path on posix, as used by the renderers)
-- ============================================================

/-- `os.path.isabs` on posix: starts with a slash. -/
def isabs (p : List Char) : Bool := p.head? = some '/'

/-- `os.path.join(base, p)` on posix for a non-absolute `p`. -/
def pjoin (base p : List Char) : List Char :=
  if base = [] then p
  else if base.getLast? = some '/' then base ++ p
  else base ++ '/' :: p

/-- `os.path.normpath` on posix (the `posixpath.normpath` algorithm). -/
def normpath (p : List Char) : List Char :=
  if p = [] then cs "."
  else
    let initialSlashes : Nat :=
      if (cs "//").isPrefixOf p ∧ ¬ (cs "///").isPrefixOf p then 2
      else if (cs "/").isPrefixOf p then 1 else 0
    let comps := p.splitOn '/'
    let newComps := comps.foldl
      (fun acc comp =>
        if comp = [] ∨ comp = cs "." then acc
        else if comp ≠ cs ".." ∨ (initialSlashes = 0 ∧ acc = []) ∨
            acc.getLast? = some (cs "..") then acc ++ [comp]
        else acc.dropLast)
      []
    let res := List.replicate initialSlashes '/' ++ List.intercalate (cs "/") newComps
    if res = [] then cs "." else res

/-- The ambient filesystem and optional-library state a render consults:
the working directory (for `os.path.abspath`), `os.path.exists`, whether
`tk.PhotoImage` succeeds on a path, whether PIL is importable, and
whether PIL decodes a path. -/
structure FS where
  cwd : List Char
  pexists : List Char → Bool
  photoOk : List Char → Bool
  pilAvailable : Bool
  pilOk : List Char → Bool

/-- `os.path.abspath`: join against the working directory when relative,
then normalize. -/
def abspath (fs : FS) (p : List Char) : List Char :=
  if isabs p then normpath p else normpath (pjoin fs.cwd p)

/-- The image-path resolution performed by both renderers: a
non-absolute path is joined against the base folder, then the result is
made absolute and normalized. -/
def resolveImagePath (fs : FS) (base p : List Char) : List Char :=
  abspath fs (if isabs p then p else pjoin base p)

-- ============================================================
-- Render instructions and session state
-- ============================================================

/-- One operation performed on the tkinter text widget: `insert` with a
(possibly empty) tuple of style tags, `image_create`, `tag_add` over a
character range, and the `tag_bind` of a hyperlink tag to a callback
opening `url` (positions are absolute character offsets). -/
inductive WInstr where
  | insert (text : List Char) (tags : List String)
  | imageCreate (path : List Char)
  | tagAdd (tag : String) (start stop : Nat)
  | tagBind (tag : String) (url : List Char)
  deriving DecidableEq, Repr

/-- The mutable state a render touches besides the widget: the
module-global `link_callbacks` dictionary (modelled as the list of
registered target urls, in insertion order; the synthetic tag of the
`k`-th entry is `hyperlink_k`) and the image cache list (modelled by the
paths of the cached images). -/
structure RState where
  linkTable : List (List Char)
  imageCache : List (List Char)
  deriving DecidableEq, Repr

/-- The synthetic tag name `f"hyperlink_{len(callback_store)}"`. -/
def hyperTag (n : Nat) : String := "hyperlink_" ++ toString n

/-- Result of a rendering pass: the widget operations in order, the
widget's character position after them, and the final mutable state. -/
structure RenderOut where
  instrs : List WInstr
  pos : Nat
  st : RState
  deriving DecidableEq, Repr

/-- The style tags attached to an inserted token of each kind
(the `if ttype == ...` cascade in render_markdown_raw). -/
def tokenTags : TokenType → List String
  | TokenType.NORMAL => []
  | TokenType.ITALIC => ["italic"]
  | TokenType.BOLD => ["bold"]
  | TokenType.BOLD_ITALIC => ["bold", "italic"]
  | TokenType.INLINE_CODE => ["inlinecode"]

/-- Insert the tokens of an inline-tokenized piece of text. -/
def tokensInstrs (toks : List (TokenType × List Char)) : List WInstr :=
  toks.map (fun t => WInstr.insert t.2 (tokenTags t.1))

/-- Total number of characters the tokens insert into the widget. -/
def toksTextLen (toks : List (TokenType × List Char)) : Nat :=
  (toks.map (fun t => t.2.length)).sum

-- ============================================================
-- Line-scanning renderer (render_markdown_raw)
-- ============================================================

/-- The hyperlink/paragraph part of a line in `render_markdown_raw`: the
`re.finditer` loop over `[text](url)` matches.  For each match, the text
before it is inline-tokenized and inserted; the display text is inserted
with the "hyperlink" tag; `insert_hyperlink` then adds the synthetic tag
`hyperlink_{len(link_callbacks)}` over the display range, registers the
url in the callback table, and binds the click handler.  The text after
the last match is inline-tokenized and inserted.  Fuel: each match
consumes at least four characters of the line, so `s.length` suffices. -/
def renderPara : Nat → List Char → Nat → RState → RenderOut
  | 0, s, pos, st =>
    ⟨tokensInstrs (tokenize_inline s), pos + toksTextLen (tokenize_inline s), st⟩
  | fuel + 1, s, pos, st =>
    match findFirstLink s with
    | none =>
      ⟨tokensInstrs (tokenize_inline s), pos + toksTextLen (tokenize_inline s), st⟩
    | some (before, txt, url, after) =>
      let btoks := tokenize_inline before
      let pos1 := pos + toksTextLen btoks
      let tag := hyperTag st.linkTable.length
      let rest := renderPara fuel after (pos1 + txt.length)
        { st with linkTable := st.linkTable ++ [url] }
      ⟨tokensInstrs btoks ++
        (WInstr.insert txt ["hyperlink"] ::
         WInstr.tagAdd tag pos1 (pos1 + txt.length) ::
         WInstr.tagBind tag url :: rest.instrs),
       rest.pos, rest.st⟩

/-- The `for line in lines` loop of `render_markdown_raw`, threading the
`in_code_block` flag, the widget position, and the mutable state. -/
def renderLines (fs : FS) (base : List Char) :
    List (List Char) → Bool → Nat → RState → RenderOut
  | [], _, pos, st => ⟨[], pos, st⟩
  | line :: rest, inCode, pos, st =>
    let stripped := pstrip line
    if (cs "```").isPrefixOf stripped then
      -- fence: toggle the flag, emit a codeblock-tagged newline
      let r := renderLines fs base rest (!inCode) (pos + 1) st
      ⟨WInstr.insert [nlc] ["codeblock"] :: r.instrs, r.pos, r.st⟩
    else if inCode then
      -- inside a fence: the line verbatim, codeblock-tagged, plus newline
      let r := renderLines fs base rest inCode (pos + line.length + 1) st
      ⟨WInstr.insert (line ++ [nlc]) ["codeblock"] :: r.instrs, r.pos, r.st⟩
    else
      match imgMatch stripped with
      | some p =>
        let resolved := resolveImagePath fs base p
        let this : List WInstr × Nat × RState :=
          if fs.pexists resolved then
            if fs.photoOk resolved then
              ([WInstr.imageCreate resolved], pos + 1,
               { st with imageCache := st.imageCache ++ [resolved] })
            else if fs.pilAvailable && fs.pilOk resolved then
              ([WInstr.imageCreate resolved], pos + 1,
               { st with imageCache := st.imageCache ++ [resolved] })
            else
              let t := cs "[Unsupported image format: " ++ resolved ++ cs "]" ++ [nlc]
              ([WInstr.insert t []], pos + t.length, st)
          else
            let t := cs "[Image not found: " ++ resolved ++ cs "]" ++ [nlc]
            ([WInstr.insert t []], pos + t.length, st)
        let r := renderLines fs base rest inCode (this.2.1 + 1) this.2.2
        ⟨this.1 ++ (WInstr.insert [nlc] [] :: r.instrs), r.pos, r.st⟩
      | none =>
        if (cs "# ").isPrefixOf stripped then
          let t := stripped.drop 2 ++ [nlc]
          let r := renderLines fs base rest inCode (pos + t.length) st
          ⟨WInstr.insert t ["h1"] :: r.instrs, r.pos, r.st⟩
        else if (cs "## ").isPrefixOf stripped then
          let t := stripped.drop 3 ++ [nlc]
          let r := renderLines fs base rest inCode (pos + t.length) st
          ⟨WInstr.insert t ["h2"] :: r.instrs, r.pos, r.st⟩
        else if (cs "### ").isPrefixOf stripped then
          let t := stripped.drop 4 ++ [nlc]
          let r := renderLines fs base rest inCode (pos + t.length) st
          ⟨WInstr.insert t ["h3"] :: r.instrs, r.pos, r.st⟩
        else
          let para := renderPara line.length line pos st
          let r := renderLines fs base rest inCode (para.pos + 1) para.st
          ⟨para.instrs ++ (WInstr.insert [nlc] [] :: r.instrs), r.pos, r.st⟩

/-- `render_markdown_raw(text_widget, content, image_cache, base_folder)`:
clear the widget, split the content on newlines, scan the lines. -/
def render_markdown_raw (fs : FS) (base content : List Char) (st : RState) : RenderOut :=
  renderLines fs base (content.splitOn nlc) false 0 st

-- ============================================================
-- Structured renderer (render_markdown_with_mistune)
-- ============================================================

/-- A node of the mistune AST as consumed by `visit` in
`render_markdown_with_mistune`: the node kinds the visitor recognizes,
plus `other` for the fallback that only recurses into children.  A list
item is represented by its list of child nodes. -/
inductive MNode where
  | text (s : List Char)
  | heading (level : Nat) (children : List MNode)
  | paragraph (children : List MNode)
  | strong (children : List MNode)
  | emphasis (children : List MNode)
  | codespan (s : List Char)
  | code (s : List Char)
  | link (url : List Char) (children : List MNode)
  | image (src : List Char)
  | list (items : List (List MNode))
  | other (children : List MNode)

mutual

/-- `visit(node)` from `render_markdown_with_mistune`, threading the
widget position and the mutable state and returning the operations the
node performs. -/
def visitNode (fs : FS) (base : List Char) : MNode → Nat → RState → RenderOut
  | MNode.text s, pos, st => ⟨[WInstr.insert s []], pos + s.length, st⟩
  | MNode.heading level children, pos, st =>
    let r := visitNodes fs base children pos st
    let tag := if level = 1 then "h1" else if level = 2 then "h2" else "h3"
    ⟨r.instrs ++ [WInstr.tagAdd tag pos r.pos, WInstr.insert [nlc] []],
     r.pos + 1, r.st⟩
  | MNode.paragraph children, pos, st =>
    let r := visitNodes fs base children pos st
    ⟨r.instrs ++ [WInstr.insert [nlc] []], r.pos + 1, r.st⟩
  | MNode.strong children, pos, st =>
    let r := visitNodes fs base children pos st
    ⟨r.instrs ++ [WInstr.tagAdd "bold" pos r.pos], r.pos, r.st⟩
  | MNode.emphasis children, pos, st =>
    let r := visitNodes fs base children pos st
    ⟨r.instrs ++ [WInstr.tagAdd "italic" pos r.pos], r.pos, r.st⟩
  | MNode.codespan s, pos, st =>
    ⟨[WInstr.insert s [], WInstr.tagAdd "inlinecode" pos (pos + s.length)],
     pos + s.length, st⟩
  | MNode.code s, pos, st =>
    ⟨[WInstr.insert (s ++ [nlc]) ["codeblock"]], pos + s.length + 1, st⟩
  | MNode.link url children, pos, st =>
    let r := visitNodes fs base children pos st
    let tag := hyperTag r.st.linkTable.length
    ⟨r.instrs ++
      [WInstr.tagAdd "hyperlink" pos r.pos,
       WInstr.tagAdd tag pos r.pos,
       WInstr.tagBind tag url],
     r.pos, { r.st with linkTable := r.st.linkTable ++ [url] }⟩
  | MNode.image src, pos, st =>
    let resolved := resolveImagePath fs base src
    let this : List WInstr × Nat × RState :=
      if fs.pexists resolved then
        if fs.photoOk resolved then
          ([WInstr.imageCreate resolved], pos + 1,
           { st with imageCache := st.imageCache ++ [resolved] })
        else if fs.pilAvailable && fs.pilOk resolved then
          ([WInstr.imageCreate resolved], pos + 1,
           { st with imageCache := st.imageCache ++ [resolved] })
        else
          let t := cs "[Unsupported image format: " ++ resolved ++ cs "]" ++ [nlc]
          ([WInstr.insert t []], pos + t.length, st)
      else
        let t := cs "[Image not found: " ++ resolved ++ cs "]" ++ [nlc]
        ([WInstr.insert t []], pos + t.length, st)
    ⟨this.1 ++ [WInstr.insert [nlc] []], this.2.1 + 1, this.2.2⟩
  | MNode.list items, pos, st => visitItems fs base items pos st
  | MNode.other children, pos, st => visitNodes fs base children pos st

/-- Visit a list of sibling nodes in order. -/
def visitNodes (fs : FS) (base : List Char) : List MNode → Nat → RState → RenderOut
  | [], pos, st => ⟨[], pos, st⟩
  | n :: rest, pos, st =>
    let r := visitNode fs base n pos st
    let r2 := visitNodes fs base rest r.pos r.st
    ⟨r.instrs ++ r2.instrs, r2.pos, r2.st⟩

/-- The `list` branch of `visit`: for each item, a literal `"- "`, the
item's children, then a newline. -/
def visitItems (fs : FS) (base : List Char) : List (List MNode) → Nat → RState → RenderOut
  | [], pos, st => ⟨[], pos, st⟩
  | item :: rest, pos, st =>
    let r := visitNodes fs base item (pos + 2) st
    let r2 := visitItems fs base rest (r.pos + 1) r.st
    ⟨WInstr.insert (cs "- ") [] :: r.instrs ++ (WInstr.insert [nlc] [] :: r2.instrs),
     r2.pos, r2.st⟩

end

/-- `render_markdown_with_mistune`: the whole body runs inside
`try ... except Exception: pass`.  The external mistune parse is modelled
by `parse`; when it raises, the exception is swallowed and the function
returns having performed no widget operation (no fallback is invoked).
On success the widget is cleared and the AST is visited. -/
def render_markdown_with_mistune (parse : List Char → Except Unit (List MNode))
    (fs : FS) (base content : List Char) (st : RState) : RenderOut :=
  match parse content with
  | Except.error _ => ⟨[], 0, st⟩
  | Except.ok ast => visitNodes fs base ast 0 st

/-- `render_markdown`: use the mistune renderer when the library is
available, otherwise the raw line-scanning renderer. -/
def render_markdown (mistuneAvailable : Bool)
    (parse : List Char → Except Unit (List MNode))
    (fs : FS) (base content : List Char) (st : RState) : RenderOut :=
  if mistuneAvailable then render_markdown_with_mistune parse fs base content st
  else render_markdown_raw fs base content st

-- ============================================================
-- Application-level document loop (MarkdownViewerApp.load_markdown_files)
-- ============================================================

/-- The render loop of `load_markdown_files`: one fresh text widget per
document tab, but one `self.image_cache` per application and one
module-global `link_callbacks` table, both threaded through every
render.  Returns each document's widget operations and the final shared
state. -/
def appRenderDocs (mistuneAvailable : Bool)
    (parse : List Char → Except Unit (List MNode)) (fs : FS) (base : List Char) :
    List (List Char) → RState → List (List WInstr) × RState
  | [], st => ([], st)
  | d :: rest, st =>
    let r := render_markdown mistuneAvailable parse fs base d st
    let r2 := appRenderDocs mistuneAvailable parse fs base rest r.st
    (r.instrs :: r2.1, r2.2)

-- ============================================================
-- Storage (storage.py: pack_folder / unpack_file)
-- ============================================================

/-- A filesystem tree for the storage model: the files, each an absolute
path (as a list of components) with its byte content. -/
abbrev FileTree : Type := List (List String × List Nat)

/-- `pack_folder(folder_path, zip_path)`: walk the files under the
folder (`os.walk`), store each one under its path relative to the folder
root (`os.path.relpath`).  The archive is modelled by its entry list:
relative component path and byte content. -/
def pack_folder (tree : FileTree) (folder : List String) : List (List String × List Nat) :=
  (tree.filter (fun e => folder.isPrefixOf e.1 && decide (folder ≠ e.1))).map
    (fun e => (e.1.drop folder.length, e.2))

/-- `unpack_file(zip_path, extract_to)`: `ZipFile.extractall` writes each
archive entry below the destination folder, preserving relative paths.
Returns the files created. -/
def unpack_file (archive : List (List String × List Nat)) (dest : List String) : FileTree :=
  archive.map (fun e => (dest ++ e.1, e.2))

-- ============================================================
-- Default environment used by concrete examples
-- ============================================================

/-- A filesystem on which nothing exists and nothing decodes. -/
def emptyFS : FS := ⟨cs "/", fun _ => false, fun _ => false, false, fun _ => false⟩

/-- A structured parser that raises on every document. -/
def raisingParse : List Char → Except Unit (List MNode) := fun _ => Except.error ()

-- ============================================================
-- Tokenizer lemmas
-- ============================================================

theorem splitOnFirst_eq {delim : List Char} : ∀ {s a b : List Char},
    splitOnFirst delim s = some (a, b) → a ++ delim ++ b = s := by
  intro s
  induction s with
  | nil =>
    intro a b h
    simp only [splitOnFirst] at h
    split at h
    · next hp =>
      simp only [Option.some.injEq, Prod.mk.injEq] at h
      obtain ⟨rfl, rfl⟩ := h
      have : delim = [] := by
        simpa [ List.isPrefixOf_iff_prefix] using hp
      simp [this]
    · exact absurd h (by simp)
  | cons c rest ih =>
    intro a b h
    simp only [splitOnFirst] at h
    split at h
    · next hp =>
      simp only [Option.some.injEq, Prod.mk.injEq] at h
      obtain ⟨rfl, rfl⟩ := h
      have hpre : delim <+: (c :: rest) := by
        simpa [ List.isPrefixOf_iff_prefix] using hp
      simpa using List.prefix_iff_eq_append.mp hpre
    · simp only [Option.map_eq_some'] at h
      obtain ⟨⟨a', b'⟩, hsp, hab⟩ := h
      simp only [Prod.mk.injEq] at hab
      obtain ⟨rfl, rfl⟩ := hab.symm.imp Eq.symm Eq.symm
      have := ih hsp
      simpa using congrArg (c :: ·) this

theorem splitOnFirst_length {delim s a b : List Char}
    (h : splitOnFirst delim s = some (a, b)) :
    a.length + delim.length + b.length = s.length := by
  have h2 := congrArg List.length (splitOnFirst_eq h)
  simp at h2
  omega

theorem tryDelim_eq {kind : TokenType} {delim s after : List Char}
    {tok : TokenType × List Char}
    (h : tryDelim kind delim s = some (tok, after)) :
    tok.1 = kind ∧ delim ++ tok.2 ++ delim ++ after = s ∧
      delim.length + tok.2.length + delim.length + after.length = s.length := by
  simp only [tryDelim] at h
  split at h
  · next hp =>
    simp only [Option.map_eq_some'] at h
    obtain ⟨⟨a', b'⟩, hsp, htok⟩ := h
    simp only [Prod.mk.injEq] at htok
    obtain ⟨h1, h2⟩ := htok
    have hpre : delim <+: s := by simpa [ List.isPrefixOf_iff_prefix] using hp
    have hs : delim ++ s.drop delim.length = s := List.prefix_iff_eq_append.mp hpre
    have heq := splitOnFirst_eq hsp
    constructor
    · rw [← h1]
    constructor
    · rw [← h1, ← h2]
      simp only
      calc delim ++ a' ++ delim ++ b' = delim ++ (a' ++ delim ++ b') := by simp [List.append_assoc]
        _ = delim ++ s.drop delim.length := by rw [heq]
        _ = s := hs
    · have := congrArg List.length (show delim ++ tok.2 ++ delim ++ after = s by
        rw [← h1, ← h2]
        simp only
        calc delim ++ a' ++ delim ++ b' = delim ++ (a' ++ delim ++ b') := by simp [List.append_assoc]
          _ = delim ++ s.drop delim.length := by rw [heq]
          _ = s := hs)
      simpa [Nat.add_assoc] using this
  · exact absurd h (by simp)

/-- A fired tokenizer step consumed exactly the characters its token
re-inserts, and at least two of them. -/
theorem tokenizeStep_eq {s after : List Char} {tok : TokenType × List Char}
    (h : tokenizeStep s = some (tok, after)) :
    tokenSource tok ++ after = s ∧ after.length + 2 ≤ s.length := by
  simp only [tokenizeStep] at h
  rw [Option.orElse_eq_some] at h
  rcases h with h1 | ⟨-, h'⟩
  · obtain ⟨hk, he, hl⟩ := tryDelim_eq h1
    obtain ⟨k, t⟩ := tok
    subst hk
    constructor
    · simpa [tokenSource] using he
    · simp at hl
      omega
  · rw [Option.orElse_eq_some] at h'
    rcases h' with h2 | ⟨-, h''⟩
    · obtain ⟨hk, he, hl⟩ := tryDelim_eq h2
      obtain ⟨k, t⟩ := tok
      subst hk
      constructor
      · simpa [tokenSource, cs] using he
      · simp [cs] at hl
        omega
    · rw [Option.orElse_eq_some] at h''
      rcases h'' with h3 | ⟨-, h4⟩
      · obtain ⟨hk, he, hl⟩ := tryDelim_eq h3
        obtain ⟨k, t⟩ := tok
        subst hk
        constructor
        · simpa [tokenSource, cs] using he
        · simp [cs] at hl
          omega
      · obtain ⟨hk, he, hl⟩ := tryDelim_eq h4
        obtain ⟨k, t⟩ := tok
        subst hk
        constructor
        · simpa [tokenSource, cs] using he
        · simp [cs] at hl
          omega

theorem untokenize_tokenizeAux : ∀ (fuel : Nat) (s : List Char),
    s.length ≤ fuel → untokenize (tokenizeAux fuel s) = s := by
  intro fuel
  induction fuel with
  | zero =>
    intro s hs
    have : s = [] := List.length_eq_zero.mp (Nat.le_zero.mp hs)
    subst this
    rfl
  | succ n ih =>
    intro s hs
    match s with
    | [] => rfl
    | c :: rest =>
      simp only [tokenizeAux]
      cases h : tokenizeStep (c :: rest) with
      | some p =>
        obtain ⟨tok, after⟩ := p
        obtain ⟨heq, hlen⟩ := tokenizeStep_eq h
        simp only [untokenize, List.map_cons, List.flatten_cons]
        have hle : after.length ≤ n := by
          simp only [List.length_cons] at hs hlen
          omega
        have := ih after hle
        simp only [untokenize] at this
        rw [this, heq]
      | none =>
        simp only [untokenize, List.map_cons, List.flatten_cons]
        have := ih rest (by simp only [List.length_cons] at hs; omega)
        simp only [untokenize] at this
        rw [this]
        rfl

/-- C5.  For every input line (in particular every line with balanced
delimiters) the token sequence of `tokenize_inline` covers the line left
to right with no gaps or overlaps: concatenating the token texts with
each token's original delimiter characters re-inserted around it
(backticks for INLINE_CODE, `***` for BOLD_ITALIC, `**` for BOLD, `*`
for ITALIC, nothing for NORMAL) reproduces the original line exactly. -/
theorem tokenize_inline_reconstructs (s : List Char) :
    untokenize (tokenize_inline s) = s :=
  untokenize_tokenizeAux s.length s le_rfl

/-- A character that is neither a backtick nor an asterisk never fires a
delimiter rule. -/
theorem tokenizeStep_none_of_plain {c : Char} (rest : List Char)
    (hb : c ≠ btick) (hs : c ≠ '*') : tokenizeStep (c :: rest) = none := by
  simp only [tokenizeStep, tryDelim, cs]
  have h1 : [btick].isPrefixOf (c :: rest) = false := by
    simp [List.isPrefixOf, Ne.symm hb]
  have h2 : ('*' :: '*' :: '*' :: []).isPrefixOf (c :: rest) = false := by
    simp [List.isPrefixOf, Ne.symm hs]
  have h3 : ('*' :: '*' :: []).isPrefixOf (c :: rest) = false := by
    simp [List.isPrefixOf, Ne.symm hs]
  have h4 : ('*' :: []).isPrefixOf (c :: rest) = false := by
    simp [List.isPrefixOf, Ne.symm hs]
  simp_all [String.toList]

/-- C3.  At a scan position where every candidate opening delimiter
(backtick, `***`, `**`, `*`) that starts there has no matching closing
delimiter of the same marker length in the remainder of the line, the
tokenizer treats the character as ordinary text: it emits exactly one
one-character NORMAL token and advances the scan position by one; in
particular `tokenize_inline "*unterminated"` is the sequence of NORMAL
tokens spelling exactly `"*unterminated"`. -/
theorem tokenize_inline_unmatched_literal (c : Char) (rest : List Char)
    (h1 : [btick].isPrefixOf (c :: rest) → splitOnFirst [btick] ((c :: rest).drop 1) = none)
    (h2 : (cs "***").isPrefixOf (c :: rest) → splitOnFirst (cs "***") ((c :: rest).drop 3) = none)
    (h3 : (cs "**").isPrefixOf (c :: rest) → splitOnFirst (cs "**") ((c :: rest).drop 2) = none)
    (h4 : (cs "*").isPrefixOf (c :: rest) → splitOnFirst (cs "*") ((c :: rest).drop 1) = none) :
    tokenize_inline (c :: rest) = (TokenType.NORMAL, [c]) :: tokenize_inline rest ∧
    tokenize_inline (cs "*unterminated") =
      (cs "*unterminated").map (fun ch => (TokenType.NORMAL, [ch])) := by
  constructor
  · have hstep : tokenizeStep (c :: rest) = none := by
      simp only [tokenizeStep, tryDelim]
      have e1 : ([btick].length : Nat) = 1 := rfl
      have e2 : ((cs "***").length : Nat) = 3 := rfl
      have e3 : ((cs "**").length : Nat) = 2 := rfl
      have e4 : ((cs "*").length : Nat) = 1 := rfl
      rw [e1, e2, e3, e4]
      by_cases p1 : [btick].isPrefixOf (c :: rest) <;>
        by_cases p2 : (cs "***").isPrefixOf (c :: rest) <;>
        by_cases p3 : (cs "**").isPrefixOf (c :: rest) <;>
        by_cases p4 : (cs "*").isPrefixOf (c :: rest) <;>
        simp_all
    simp only [tokenize_inline, List.length_cons, tokenizeAux, hstep]
  · rfl

/-- C3 witness: the single-step behaviour at the head of `"*x"`, whose
`*` has no closing match. -/
theorem tokenize_inline_unmatched_literal_witness :
    tokenize_inline ('*' :: cs "x") = (TokenType.NORMAL, ['*']) :: tokenize_inline (cs "x") :=
  (tokenize_inline_unmatched_literal '*' (cs "x")
    (by decide) (by decide) (by decide) (by decide)).1

-- ============================================================
-- Line-classification lemmas
-- ============================================================

theorem dropWhile_getLast_of_last {p : Char → Bool} {c : Char} (hc : p c = false) :
    ∀ u : List Char, (List.dropWhile p (u ++ [c])).getLast? = some c := by
  intro u
  induction u with
  | nil => simp [List.dropWhile, hc]
  | cons a u ih =>
    by_cases ha : p a
    · simpa [List.dropWhile, ha] using ih
    · have : List.dropWhile p (a :: u ++ [c]) = a :: (u ++ [c]) := by
        simp [List.dropWhile, ha]
      rw [show a :: u ++ [c] = (a :: u) ++ [c] from rfl, this]
      exact List.getLast?_concat (a :: u)

/-- The stripped form of a line whose first character is not whitespace
still starts with that character. -/
theorem pstrip_head {c : Char} (t : List Char) (h : c.isWhitespace = false) :
    (pstrip (c :: t)).head? = some c := by
  simp only [pstrip]
  have h1 : List.dropWhile Char.isWhitespace (c :: t) = c :: t := by
    simp [List.dropWhile, h]
  rw [h1, List.head?_reverse, List.reverse_cons]
  exact dropWhile_getLast_of_last h t.reverse

theorem head?_of_isPrefixOf {d : Char} {ds l : List Char}
    (h : (d :: ds).isPrefixOf l = true) : l.head? = some d := by
  cases l with
  | nil => simp [List.isPrefixOf] at h
  | cons b bs =>
    simp only [List.isPrefixOf, Bool.and_eq_true, beq_iff_eq] at h
    simp [h.1]

theorem isPrefixOf_false_of_head {d : Char} {ds l : List Char}
    (h : l.head? ≠ some d) : (d :: ds).isPrefixOf l = false := by
  cases hp : (d :: ds).isPrefixOf l
  · rfl
  · exact absurd (head?_of_isPrefixOf hp) h

theorem imgMatch_isPrefixOf {s p : List Char} (h : imgMatch s = some p) :
    (cs "![").isPrefixOf s = true := by
  by_contra hb
  have : (cs "![").isPrefixOf s = false := by
    cases hp : (cs "![").isPrefixOf s
    · rfl
    · exact absurd hp hb
  simp [imgMatch, this] at h

theorem imgMatch_none_of_head {s : List Char} (h : s.head? ≠ some '!') :
    imgMatch s = none := by
  have : (cs "![").isPrefixOf s = false := isPrefixOf_false_of_head h
  simp [imgMatch, this]

/-- C6.  While the in-code-block flag is set, every line whose trimmed
form is not a fence is emitted verbatim with the CODEBLOCK style tag and
a trailing newline — no inline tokenization, no heading/image/link
detection, no state change; and rendering the document
"```" / "**not bold**" / "```" yields exactly three codeblock-tagged
inserts — the literal text `**not bold**` with no BOLD span — while the
fence lines only toggle the flag and contribute a bare newline, never
their own text. -/
theorem codeblock_verbatim :
    (∀ (fs : FS) (base line : List Char) (rest : List (List Char)) (pos : Nat) (st : RState),
      (cs "```").isPrefixOf (pstrip line) = false →
      renderLines fs base (line :: rest) true pos st =
        ⟨WInstr.insert (line ++ [nlc]) ["codeblock"] ::
           (renderLines fs base rest true (pos + line.length + 1) st).instrs,
         (renderLines fs base rest true (pos + line.length + 1) st).pos,
         (renderLines fs base rest true (pos + line.length + 1) st).st⟩) ∧
    (∀ (fs : FS) (base : List Char) (st : RState),
      render_markdown_raw fs base (cs "```\n**not bold**\n```") st =
        ⟨[WInstr.insert [nlc] ["codeblock"],
          WInstr.insert (cs "**not bold**" ++ [nlc]) ["codeblock"],
          WInstr.insert [nlc] ["codeblock"]], 15, st⟩) := by
  constructor
  · intro fs base line rest pos st hfence
    simp only [renderLines, hfence, Bool.false_eq_true, if_false, if_true]
  · intro fs base st
    rfl

/-- C6 witness: a non-fence line rendered inside a code block, on a
concrete input. -/
theorem codeblock_verbatim_witness :
    renderLines emptyFS (cs "/b") [cs "**x**"] true 0 ⟨[], []⟩ =
      ⟨[WInstr.insert (cs "**x**" ++ [nlc]) ["codeblock"]], 6, ⟨[], []⟩⟩ := by
  have h := codeblock_verbatim.1 emptyFS (cs "/b") (cs "**x**") [] 0 ⟨[], []⟩ (by decide)
  simpa using h

/-- Unfolding of `renderLines` at a level-3 heading line. -/
theorem renderLines_heading3 (fs : FS) (base line : List Char)
    (rest : List (List Char)) (pos : Nat) (st : RState)
    (h : (cs "### ").isPrefixOf (pstrip line) = true) :
    renderLines fs base (line :: rest) false pos st =
      ⟨WInstr.insert ((pstrip line).drop 4 ++ [nlc]) ["h3"] ::
         (renderLines fs base rest false (pos + ((pstrip line).drop 4 ++ [nlc]).length) st).instrs,
       (renderLines fs base rest false (pos + ((pstrip line).drop 4 ++ [nlc]).length) st).pos,
       (renderLines fs base rest false (pos + ((pstrip line).drop 4 ++ [nlc]).length) st).st⟩ := by
  obtain ⟨t, ht⟩ : ∃ t, pstrip line = '#' :: '#' :: '#' :: ' ' :: t := by
    have := List.isPrefixOf_iff_prefix.mp h
    obtain ⟨t, ht⟩ := this
    exact ⟨t, ht.symm⟩
  have hfence : (cs "```").isPrefixOf (pstrip line) = false := by
    rw [ht]; simp [cs, List.isPrefixOf, btick]
  have himg : imgMatch (pstrip line) = none := by
    refine imgMatch_none_of_head ?_
    rw [ht]; simp
  have hh1 : (cs "# ").isPrefixOf (pstrip line) = false := by
    rw [ht]; simp [cs, List.isPrefixOf]
  have hh2 : (cs "## ").isPrefixOf (pstrip line) = false := by
    rw [ht]; simp [cs, List.isPrefixOf]
  simp only [renderLines, hfence, himg, hh1, hh2, h, Bool.false_eq_true, if_false,
    if_true]

/-- Unfolding of `renderLines` at a level-2 heading line. -/
theorem renderLines_heading2 (fs : FS) (base line : List Char)
    (rest : List (List Char)) (pos : Nat) (st : RState)
    (h : (cs "## ").isPrefixOf (pstrip line) = true) :
    renderLines fs base (line :: rest) false pos st =
      ⟨WInstr.insert ((pstrip line).drop 3 ++ [nlc]) ["h2"] ::
         (renderLines fs base rest false (pos + ((pstrip line).drop 3 ++ [nlc]).length) st).instrs,
       (renderLines fs base rest false (pos + ((pstrip line).drop 3 ++ [nlc]).length) st).pos,
       (renderLines fs base rest false (pos + ((pstrip line).drop 3 ++ [nlc]).length) st).st⟩ := by
  obtain ⟨t, ht⟩ : ∃ t, pstrip line = '#' :: '#' :: ' ' :: t := by
    have := List.isPrefixOf_iff_prefix.mp h
    obtain ⟨t, ht⟩ := this
    exact ⟨t, ht.symm⟩
  have hfence : (cs "```").isPrefixOf (pstrip line) = false := by
    rw [ht]; simp [cs, List.isPrefixOf, btick]
  have himg : imgMatch (pstrip line) = none := by
    refine imgMatch_none_of_head ?_
    rw [ht]; simp
  have hh1 : (cs "# ").isPrefixOf (pstrip line) = false := by
    rw [ht]; simp [cs, List.isPrefixOf]
  simp only [renderLines, hfence, himg, hh1, h, Bool.false_eq_true, if_false, if_true]

/-- Unfolding of `renderLines` at a level-1 heading line. -/
theorem renderLines_heading1 (fs : FS) (base line : List Char)
    (rest : List (List Char)) (pos : Nat) (st : RState)
    (h : (cs "# ").isPrefixOf (pstrip line) = true) :
    renderLines fs base (line :: rest) false pos st =
      ⟨WInstr.insert ((pstrip line).drop 2 ++ [nlc]) ["h1"] ::
         (renderLines fs base rest false (pos + ((pstrip line).drop 2 ++ [nlc]).length) st).instrs,
       (renderLines fs base rest false (pos + ((pstrip line).drop 2 ++ [nlc]).length) st).pos,
       (renderLines fs base rest false (pos + ((pstrip line).drop 2 ++ [nlc]).length) st).st⟩ := by
  obtain ⟨t, ht⟩ : ∃ t, pstrip line = '#' :: ' ' :: t := by
    have := List.isPrefixOf_iff_prefix.mp h
    obtain ⟨t, ht⟩ := this
    exact ⟨t, ht.symm⟩
  have hfence : (cs "```").isPrefixOf (pstrip line) = false := by
    rw [ht]; simp [cs, List.isPrefixOf, btick]
  have himg : imgMatch (pstrip line) = none := by
    refine imgMatch_none_of_head ?_
    rw [ht]; simp
  simp only [renderLines, hfence, himg, h, Bool.false_eq_true, if_false, if_true]

/-- C7.  Heading classification over the trimmed line is
longest-prefix-wins: a trimmed line starting with `"### "` is emitted as
a level-3 heading with the four-character marker stripped (not as a
level-1 heading with a literal `"## "` remaining), a `"## "` line as a
level-2 heading with three characters stripped, and a `"# "` line as a
level-1 heading with two characters stripped — each with the marker and
its following space removed and the heading tag attached. -/
theorem heading_longest_prefix_wins (fs : FS) (base line : List Char)
    (rest : List (List Char)) (pos : Nat) (st : RState) :
    ((cs "### ").isPrefixOf (pstrip line) = true →
      renderLines fs base (line :: rest) false pos st =
        ⟨WInstr.insert ((pstrip line).drop 4 ++ [nlc]) ["h3"] ::
           (renderLines fs base rest false (pos + ((pstrip line).drop 4 ++ [nlc]).length) st).instrs,
         (renderLines fs base rest false (pos + ((pstrip line).drop 4 ++ [nlc]).length) st).pos,
         (renderLines fs base rest false (pos + ((pstrip line).drop 4 ++ [nlc]).length) st).st⟩) ∧
    ((cs "## ").isPrefixOf (pstrip line) = true →
      renderLines fs base (line :: rest) false pos st =
        ⟨WInstr.insert ((pstrip line).drop 3 ++ [nlc]) ["h2"] ::
           (renderLines fs base rest false (pos + ((pstrip line).drop 3 ++ [nlc]).length) st).instrs,
         (renderLines fs base rest false (pos + ((pstrip line).drop 3 ++ [nlc]).length) st).pos,
         (renderLines fs base rest false (pos + ((pstrip line).drop 3 ++ [nlc]).length) st).st⟩) ∧
    ((cs "# ").isPrefixOf (pstrip line) = true →
      renderLines fs base (line :: rest) false pos st =
        ⟨WInstr.insert ((pstrip line).drop 2 ++ [nlc]) ["h1"] ::
           (renderLines fs base rest false (pos + ((pstrip line).drop 2 ++ [nlc]).length) st).instrs,
         (renderLines fs base rest false (pos + ((pstrip line).drop 2 ++ [nlc]).length) st).pos,
         (renderLines fs base rest false (pos + ((pstrip line).drop 2 ++ [nlc]).length) st).st⟩) :=
  ⟨renderLines_heading3 fs base line rest pos st,
   renderLines_heading2 fs base line rest pos st,
   renderLines_heading1 fs base line rest pos st⟩

/-- C7 witness: the line `"### h"` renders as a level-3 heading `"h"`,
not as a level-1 heading with `"## h"` remaining. -/
theorem heading_longest_prefix_wins_witness :
    renderLines emptyFS (cs "/b") [cs "### h"] false 0 ⟨[], []⟩ =
      ⟨[WInstr.insert (cs "h" ++ [nlc]) ["h3"]], 2, ⟨[], []⟩⟩ := by
  have h := (heading_longest_prefix_wins emptyFS (cs "/b") (cs "### h") [] 0 ⟨[], []⟩).1
    (by decide)
  simpa using h

/-- C8.  A line recognized as a block-level image whose referenced path,
after joining a non-absolute path against the base folder and
normalizing to absolute form, does not exist on disk renders as the
literal placeholder `"[Image not found: <resolved>]"` followed by the
unconditional trailing newline; no decode attempt is consulted (the
equation holds for every filesystem `fs`, whatever its `photoOk`,
`pilAvailable` and `pilOk` fields do) and the session state is left
unchanged for the rest of the document. -/
theorem image_not_found_placeholder (fs : FS) (base line p : List Char)
    (rest : List (List Char)) (pos : Nat) (st : RState)
    (himg : imgMatch (pstrip line) = some p)
    (hex : fs.pexists (resolveImagePath fs base p) = false) :
    renderLines fs base (line :: rest) false pos st =
      ⟨WInstr.insert
          (cs "[Image not found: " ++ resolveImagePath fs base p ++ cs "]" ++ [nlc]) [] ::
        WInstr.insert [nlc] [] ::
        (renderLines fs base rest false
          (pos + (cs "[Image not found: " ++ resolveImagePath fs base p ++ cs "]" ++ [nlc]).length + 1)
          st).instrs,
       (renderLines fs base rest false
          (pos + (cs "[Image not found: " ++ resolveImagePath fs base p ++ cs "]" ++ [nlc]).length + 1)
          st).pos,
       (renderLines fs base rest false
          (pos + (cs "[Image not found: " ++ resolveImagePath fs base p ++ cs "]" ++ [nlc]).length + 1)
          st).st⟩ := by
  have hpre : (cs "![").isPrefixOf (pstrip line) = true := imgMatch_isPrefixOf himg
  have hfence : (cs "```").isPrefixOf (pstrip line) = false := by
    refine isPrefixOf_false_of_head ?_
    rw [head?_of_isPrefixOf hpre]
    simp [btick]
  simp only [renderLines, hfence, himg, hex, Bool.false_eq_true, if_false, if_true,
    List.singleton_append]

/-- C8 witness: a concrete missing image, resolved against the base
folder to an absolute normalized path. -/
theorem image_not_found_placeholder_witness :
    renderLines emptyFS (cs "/docs") [cs "![alt](img.png)"] false 0 ⟨[], []⟩ =
      ⟨[WInstr.insert (cs "[Image not found: /docs/img.png]" ++ [nlc]) [],
        WInstr.insert [nlc] []], 34, ⟨[], []⟩⟩ := by
  have h := image_not_found_placeholder emptyFS (cs "/docs") (cs "![alt](img.png)")
    (cs "img.png") [] 0 ⟨[], []⟩ (by decide) (by decide)
  simpa using h

/-- A tokenizer step at a character other than backtick and `*` emits a
one-character NORMAL token. -/
theorem tokenize_inline_cons_plain {c : Char} (rest : List Char)
    (hb : c ≠ btick) (hs : c ≠ '*') :
    tokenize_inline (c :: rest) = (TokenType.NORMAL, [c]) :: tokenize_inline rest := by
  have hstep := tokenizeStep_none_of_plain rest hb hs
  simp only [tokenize_inline, List.length_cons, tokenizeAux, hstep]

/-- C10.  In line-scanning mode, a line outside any code block beginning
with `"- "` gets no special list handling: it falls through to the
paragraph rule (here stated for lines without an inline link match) and
is rendered as ordinary inline-tokenized text followed by a newline, and
the tokenization emits the `'-'` and `' '` marker characters as
one-character NORMAL tokens, so the bullet marker appears literally in
the output. -/
theorem list_line_renders_literally (fs : FS) (base s : List Char)
    (rest : List (List Char)) (pos : Nat) (st : RState)
    (hnl : findFirstLink ('-' :: ' ' :: s) = none) :
    renderLines fs base (('-' :: ' ' :: s) :: rest) false pos st =
      ⟨tokensInstrs (tokenize_inline ('-' :: ' ' :: s)) ++
         (WInstr.insert [nlc] [] ::
          (renderLines fs base rest false
            (pos + toksTextLen (tokenize_inline ('-' :: ' ' :: s)) + 1) st).instrs),
       (renderLines fs base rest false
         (pos + toksTextLen (tokenize_inline ('-' :: ' ' :: s)) + 1) st).pos,
       (renderLines fs base rest false
         (pos + toksTextLen (tokenize_inline ('-' :: ' ' :: s)) + 1) st).st⟩ ∧
    tokenize_inline ('-' :: ' ' :: s) =
      (TokenType.NORMAL, ['-']) :: (TokenType.NORMAL, [' ']) :: tokenize_inline s := by
  have htok : tokenize_inline ('-' :: ' ' :: s) =
      (TokenType.NORMAL, ['-']) :: (TokenType.NORMAL, [' ']) :: tokenize_inline s := by
    rw [tokenize_inline_cons_plain (' ' :: s) (by decide) (by decide),
      tokenize_inline_cons_plain s (by decide) (by decide)]
  have hhead : (pstrip ('-' :: ' ' :: s)).head? = some '-' :=
    pstrip_head (' ' :: s) (by decide)
  have hfence : (cs "```").isPrefixOf (pstrip ('-' :: ' ' :: s)) = false := by
    refine isPrefixOf_false_of_head ?_
    rw [hhead]; simp [btick]
  have himg : imgMatch (pstrip ('-' :: ' ' :: s)) = none := by
    refine imgMatch_none_of_head ?_
    rw [hhead]; simp
  have hh1 : (cs "# ").isPrefixOf (pstrip ('-' :: ' ' :: s)) = false := by
    refine isPrefixOf_false_of_head ?_
    rw [hhead]; simp
  have hh2 : (cs "## ").isPrefixOf (pstrip ('-' :: ' ' :: s)) = false := by
    refine isPrefixOf_false_of_head ?_
    rw [hhead]; simp
  have hh3 : (cs "### ").isPrefixOf (pstrip ('-' :: ' ' :: s)) = false := by
    refine isPrefixOf_false_of_head ?_
    rw [hhead]; simp
  refine ⟨?_, htok⟩
  have hpara : renderPara ('-' :: ' ' :: s).length ('-' :: ' ' :: s) pos st =
      ⟨tokensInstrs (tokenize_inline ('-' :: ' ' :: s)),
       pos + toksTextLen (tokenize_inline ('-' :: ' ' :: s)), st⟩ := by
    simp only [List.length_cons, renderPara, hnl]
  simp only [renderLines, hfence, himg, hh1, hh2, hh3, Bool.false_eq_true, if_false,
    if_true, hpara]

/-- C10 witness: the line `"- item"` rendered outside a code block. -/
theorem list_line_renders_literally_witness :
    renderLines emptyFS (cs "/b") [cs "- item"] false 0 ⟨[], []⟩ =
      ⟨tokensInstrs (tokenize_inline (cs "- item")) ++ [WInstr.insert [nlc] []], 7,
       ⟨[], []⟩⟩ := by
  have h := (list_line_renders_literally emptyFS (cs "/b") (cs "item") [] 0 ⟨[], []⟩
    (by decide)).1
  simpa using h

/-- C1.  When the structured parser raises on a document (here the
parser that raises on every input, on the document `"x"`), the
`except Exception: pass` in `render_markdown_with_mistune` swallows the
error and `render_markdown` returns having emitted no instruction at
all; it does NOT fall back to the line-scanning renderer, whose output
on the same document is nonempty — so the document is left unrendered,
contradicting the claimed whole-document fallback. -/
theorem mistune_error_no_fallback :
    (render_markdown true raisingParse emptyFS (cs "/b") (cs "x") ⟨[], []⟩).instrs = [] ∧
    (render_markdown_raw emptyFS (cs "/b") (cs "x") ⟨[], []⟩).instrs =
      [WInstr.insert (cs "x") [], WInstr.insert [nlc] []] ∧
    (render_markdown true raisingParse emptyFS (cs "/b") (cs "x") ⟨[], []⟩).instrs ≠
      (render_markdown_raw emptyFS (cs "/b") (cs "x") ⟨[], []⟩).instrs :=
  ⟨rfl, rfl, by decide⟩

/-- C9.  Unpacking the archive produced by packing a folder reproduces
every file of the original folder: a file stored at `folder ++ p` with
byte content `content` (with `p` nonempty: `os.walk` lists files
strictly below the folder root) reappears at `dest ++ p` with the same
byte content after `unpack_file (pack_folder ...)`. -/
theorem pack_unpack_roundtrip (tree : FileTree) (folder dest p : List String)
    (content : List Nat) (hmem : (folder ++ p, content) ∈ tree) (hp : p ≠ []) :
    (dest ++ p, content) ∈ unpack_file (pack_folder tree folder) dest := by
  unfold unpack_file pack_folder
  refine List.mem_map.mpr ⟨(p, content), ?_, rfl⟩
  refine List.mem_map.mpr ⟨(folder ++ p, content), ?_, ?_⟩
  · refine List.mem_filter.mpr ⟨hmem, ?_⟩
    have h1 : folder.isPrefixOf (folder ++ p) = true :=
      List.isPrefixOf_iff_prefix.mpr (List.prefix_append _ _)
    have h2 : folder ≠ folder ++ p := by
      intro h
      apply hp
      have := congrArg List.length h
      simp at this
      exact this
    simp [h1, h2]
  · simp [List.drop_left]

/-- C9 witness: packing a concrete one-file folder and unpacking it
elsewhere reproduces the file. -/
theorem pack_unpack_roundtrip_witness :
    (["out", "a.md"], [1, 2, 3]) ∈
      unpack_file (pack_folder [(["home", "a.md"], [1, 2, 3])] ["home"]) ["out"] :=
  pack_unpack_roundtrip [(["home", "a.md"], [1, 2, 3])] ["home"] ["out"] ["a.md"]
    [1, 2, 3] (by decide) (by decide)

-- ============================================================
-- Session-state invariance: rendering reads the callback table only
-- through its length
-- ============================================================

theorem renderPara_table_inv : ∀ (fuel : Nat) (s : List Char) (pos : Nat)
    (st1 st2 : RState), st1.linkTable.length = st2.linkTable.length →
    (renderPara fuel s pos st1).instrs = (renderPara fuel s pos st2).instrs ∧
    (renderPara fuel s pos st1).pos = (renderPara fuel s pos st2).pos ∧
    (renderPara fuel s pos st1).st.linkTable.length =
      (renderPara fuel s pos st2).st.linkTable.length := by
  intro fuel
  induction fuel with
  | zero =>
    intro s pos st1 st2 h
    exact ⟨rfl, rfl, h⟩
  | succ n ih =>
    intro s pos st1 st2 h
    cases hf : findFirstLink s with
    | none =>
      simp only [renderPara, hf]
      exact ⟨trivial, trivial, h⟩
    | some q =>
      obtain ⟨b, t, u, a⟩ := q
      simp only [renderPara, hf]
      have h' : ({ st1 with linkTable := st1.linkTable ++ [u] } : RState).linkTable.length =
          ({ st2 with linkTable := st2.linkTable ++ [u] } : RState).linkTable.length := by
        simp [h]
      have hr := ih a (pos + toksTextLen (tokenize_inline b) + t.length)
        { st1 with linkTable := st1.linkTable ++ [u] }
        { st2 with linkTable := st2.linkTable ++ [u] } h'
      refine ⟨?_, hr.2.1, hr.2.2⟩
      rw [h, hr.1]

theorem renderLines_table_inv (fs : FS) (base : List Char) :
    ∀ (lines : List (List Char)) (inCode : Bool) (pos : Nat) (st1 st2 : RState),
    st1.linkTable.length = st2.linkTable.length →
    (renderLines fs base lines inCode pos st1).instrs =
      (renderLines fs base lines inCode pos st2).instrs ∧
    (renderLines fs base lines inCode pos st1).pos =
      (renderLines fs base lines inCode pos st2).pos ∧
    (renderLines fs base lines inCode pos st1).st.linkTable.length =
      (renderLines fs base lines inCode pos st2).st.linkTable.length := by
  intro lines
  induction lines with
  | nil =>
    intro inCode pos st1 st2 h
    exact ⟨rfl, rfl, h⟩
  | cons line rest ih =>
    intro inCode pos st1 st2 h
    cases hf : (cs "```").isPrefixOf (pstrip line) with
    | true =>
      simp only [renderLines, hf, if_true]
      have hr := ih (!inCode) (pos + 1) st1 st2 h
      exact ⟨by rw [hr.1], hr.2.1, hr.2.2⟩
    | false =>
      cases inCode with
      | true =>
        simp only [renderLines, hf, Bool.false_eq_true, if_false, if_true]
        have hr := ih true (pos + line.length + 1) st1 st2 h
        exact ⟨by rw [hr.1], hr.2.1, hr.2.2⟩
      | false =>
        cases him : imgMatch (pstrip line) with
        | some p =>
          simp only [renderLines, hf, him, Bool.false_eq_true, if_false]
          by_cases he : fs.pexists (resolveImagePath fs base p) = true
          · by_cases hph : fs.photoOk (resolveImagePath fs base p) = true
            · simp only [he, hph, if_true]
              have hr := ih false (pos + 1 + 1)
                { st1 with imageCache := st1.imageCache ++ [resolveImagePath fs base p] }
                { st2 with imageCache := st2.imageCache ++ [resolveImagePath fs base p] }
                (by simpa using h)
              exact ⟨by rw [hr.1], hr.2.1, hr.2.2⟩
            · by_cases hpil : (fs.pilAvailable && fs.pilOk (resolveImagePath fs base p)) = true
              · simp only [he, hph, hpil, Bool.not_eq_true, if_true, if_false,
                  Bool.false_eq_true]
                have hr := ih false (pos + 1 + 1)
                  { st1 with imageCache := st1.imageCache ++ [resolveImagePath fs base p] }
                  { st2 with imageCache := st2.imageCache ++ [resolveImagePath fs base p] }
                  (by simpa using h)
                exact ⟨by rw [hr.1], hr.2.1, hr.2.2⟩
              · simp only [he, hph, hpil, Bool.not_eq_true, if_true, if_false,
                  Bool.false_eq_true]
                have hr := ih false
                  (pos + (cs "[Unsupported image format: " ++ resolveImagePath fs base p ++
                    cs "]" ++ [nlc]).length + 1) st1 st2 h
                exact ⟨by rw [hr.1], hr.2.1, hr.2.2⟩
          · simp only [he, Bool.not_eq_true, if_false, Bool.false_eq_true]
            have hr := ih false
              (pos + (cs "[Image not found: " ++ resolveImagePath fs base p ++
                cs "]" ++ [nlc]).length + 1) st1 st2 h
            exact ⟨by rw [hr.1], hr.2.1, hr.2.2⟩
        | none =>
          cases hh1 : (cs "# ").isPrefixOf (pstrip line) with
          | true =>
            simp only [renderLines, hf, him, hh1, Bool.false_eq_true, if_false, if_true]
            have hr := ih false (pos + ((pstrip line).drop 2 ++ [nlc]).length) st1 st2 h
            exact ⟨by rw [hr.1], hr.2.1, hr.2.2⟩
          | false =>
            cases hh2 : (cs "## ").isPrefixOf (pstrip line) with
            | true =>
              simp only [renderLines, hf, him, hh1, hh2, Bool.false_eq_true, if_false,
                if_true]
              have hr := ih false (pos + ((pstrip line).drop 3 ++ [nlc]).length) st1 st2 h
              exact ⟨by rw [hr.1], hr.2.1, hr.2.2⟩
            | false =>
              cases hh3 : (cs "### ").isPrefixOf (pstrip line) with
              | true =>
                simp only [renderLines, hf, him, hh1, hh2, hh3, Bool.false_eq_true,
                  if_false, if_true]
                have hr := ih false (pos + ((pstrip line).drop 4 ++ [nlc]).length) st1 st2 h
                exact ⟨by rw [hr.1], hr.2.1, hr.2.2⟩
              | false =>
                simp only [renderLines, hf, him, hh1, hh2, hh3, Bool.false_eq_true,
                  if_false]
                have hp := renderPara_table_inv line.length line pos st1 st2 h
                have hr := ih false ((renderPara line.length line pos st2).pos + 1)
                  (renderPara line.length line pos st1).st
                  (renderPara line.length line pos st2).st hp.2.2
                rw [hp.2.1] at *
                exact ⟨by rw [hp.1, hr.1], hr.2.1, hr.2.2⟩

mutual

theorem visitNode_table_inv (fs : FS) (base : List Char) :
    ∀ (n : MNode) (pos : Nat) (st1 st2 : RState),
    st1.linkTable.length = st2.linkTable.length →
    (visitNode fs base n pos st1).instrs = (visitNode fs base n pos st2).instrs ∧
    (visitNode fs base n pos st1).pos = (visitNode fs base n pos st2).pos ∧
    (visitNode fs base n pos st1).st.linkTable.length =
      (visitNode fs base n pos st2).st.linkTable.length
  | MNode.text s, pos, st1, st2, h => ⟨rfl, rfl, h⟩
  | MNode.heading level children, pos, st1, st2, h => by
    have hr := visitNodes_table_inv fs base children pos st1 st2 h
    simp only [visitNode]
    exact ⟨by rw [hr.1, hr.2.1], by rw [hr.2.1], hr.2.2⟩
  | MNode.paragraph children, pos, st1, st2, h => by
    have hr := visitNodes_table_inv fs base children pos st1 st2 h
    simp only [visitNode]
    exact ⟨by rw [hr.1], by rw [hr.2.1], hr.2.2⟩
  | MNode.strong children, pos, st1, st2, h => by
    have hr := visitNodes_table_inv fs base children pos st1 st2 h
    simp only [visitNode]
    exact ⟨by rw [hr.1, hr.2.1], hr.2.1, hr.2.2⟩
  | MNode.emphasis children, pos, st1, st2, h => by
    have hr := visitNodes_table_inv fs base children pos st1 st2 h
    simp only [visitNode]
    exact ⟨by rw [hr.1, hr.2.1], hr.2.1, hr.2.2⟩
  | MNode.codespan s, pos, st1, st2, h => ⟨rfl, rfl, h⟩
  | MNode.code s, pos, st1, st2, h => ⟨rfl, rfl, h⟩
  | MNode.link url children, pos, st1, st2, h => by
    have hr := visitNodes_table_inv fs base children pos st1 st2 h
    simp only [visitNode]
    refine ⟨by rw [hr.1, hr.2.1, hr.2.2], hr.2.1, by simp [hr.2.2]⟩
  | MNode.image src, pos, st1, st2, h => by
    simp only [visitNode]
    by_cases he : fs.pexists (resolveImagePath fs base src) = true
    · by_cases hph : fs.photoOk (resolveImagePath fs base src) = true
      · simp only [he, hph, if_true]
        exact ⟨trivial, trivial, h⟩
      · by_cases hpil : (fs.pilAvailable && fs.pilOk (resolveImagePath fs base src)) = true
        · simp only [he, hph, hpil, if_true, if_false, Bool.false_eq_true]
          exact ⟨trivial, trivial, h⟩
        · simp only [he, hph, hpil, if_true, if_false, Bool.false_eq_true]
          exact ⟨trivial, trivial, h⟩
    · simp only [he, if_false, Bool.false_eq_true]
      exact ⟨trivial, trivial, h⟩
  | MNode.list items, pos, st1, st2, h => by
    have hr := visitItems_table_inv fs base items pos st1 st2 h
    simp only [visitNode]
    exact hr
  | MNode.other children, pos, st1, st2, h => by
    have hr := visitNodes_table_inv fs base children pos st1 st2 h
    simp only [visitNode]
    exact hr

theorem visitNodes_table_inv (fs : FS) (base : List Char) :
    ∀ (ns : List MNode) (pos : Nat) (st1 st2 : RState),
    st1.linkTable.length = st2.linkTable.length →
    (visitNodes fs base ns pos st1).instrs = (visitNodes fs base ns pos st2).instrs ∧
    (visitNodes fs base ns pos st1).pos = (visitNodes fs base ns pos st2).pos ∧
    (visitNodes fs base ns pos st1).st.linkTable.length =
      (visitNodes fs base ns pos st2).st.linkTable.length
  | [], pos, st1, st2, h => ⟨rfl, rfl, h⟩
  | n :: rest, pos, st1, st2, h => by
    have h1 := visitNode_table_inv fs base n pos st1 st2 h
    have h2 := visitNodes_table_inv fs base rest (visitNode fs base n pos st2).pos
      (visitNode fs base n pos st1).st (visitNode fs base n pos st2).st h1.2.2
    simp only [visitNodes]
    rw [h1.2.1]
    exact ⟨by rw [h1.1, h2.1], h2.2.1, h2.2.2⟩

theorem visitItems_table_inv (fs : FS) (base : List Char) :
    ∀ (items : List (List MNode)) (pos : Nat) (st1 st2 : RState),
    st1.linkTable.length = st2.linkTable.length →
    (visitItems fs base items pos st1).instrs = (visitItems fs base items pos st2).instrs ∧
    (visitItems fs base items pos st1).pos = (visitItems fs base items pos st2).pos ∧
    (visitItems fs base items pos st1).st.linkTable.length =
      (visitItems fs base items pos st2).st.linkTable.length
  | [], pos, st1, st2, h => ⟨rfl, rfl, h⟩
  | item :: rest, pos, st1, st2, h => by
    have h1 := visitNodes_table_inv fs base item (pos + 2) st1 st2 h
    have h2 := visitItems_table_inv fs base rest ((visitNodes fs base item (pos + 2) st2).pos + 1)
      (visitNodes fs base item (pos + 2) st1).st (visitNodes fs base item (pos + 2) st2).st h1.2.2
    simp only [visitItems]
    rw [h1.2.1]
    exact ⟨by rw [h1.1, h2.1], h2.2.1, h2.2.2⟩

end

/-- C2.  Rendering a document is deterministic in the session state up
to the callback-table length: two renders of the same document (in
either renderer mode) from session states whose hyperlink-callback
tables have equal length — in particular two renders from fresh,
reset-empty sessions, whatever their image caches hold — produce
identical instruction sequences, including the synthetic
`hyperlink_<n>` tag identifiers they allocate. -/
theorem render_idempotent_fresh_session (mistuneAvailable : Bool)
    (parse : List Char → Except Unit (List MNode)) (fs : FS) (base content : List Char)
    (st1 st2 : RState) (h : st1.linkTable.length = st2.linkTable.length) :
    (render_markdown mistuneAvailable parse fs base content st1).instrs =
      (render_markdown mistuneAvailable parse fs base content st2).instrs := by
  cases mistuneAvailable with
  | false =>
    simp only [render_markdown, Bool.false_eq_true, if_false, render_markdown_raw]
    exact (renderLines_table_inv fs base (content.splitOn nlc) false 0 st1 st2 h).1
  | true =>
    simp only [render_markdown, if_true, render_markdown_with_mistune]
    cases hp : parse content with
    | error e => rfl
    | ok ast => exact (visitNodes_table_inv fs base ast 0 st1 st2 h).1

/-- C2 witness: the same linked document rendered from two fresh-table
sessions (with different image caches) yields identical instruction
sequences, synthetic tag identifiers included. -/
theorem render_idempotent_fresh_session_witness :
    (render_markdown false raisingParse emptyFS (cs "/b") (cs "[a](u)")
        ⟨[], [cs "x"]⟩).instrs =
      (render_markdown false raisingParse emptyFS (cs "/b") (cs "[a](u)") ⟨[], []⟩).instrs :=
  render_idempotent_fresh_session false raisingParse emptyFS (cs "/b") (cs "[a](u)")
    ⟨[], [cs "x"]⟩ ⟨[], []⟩ (by decide)

-- ============================================================
-- Hyperlink tags form one global consecutive sequence
-- ============================================================

/-- The synthetic hyperlink tags a sequence of widget operations binds,
in order. -/
def bindTags (is : List WInstr) : List String :=
  is.filterMap (fun i =>
    match i with
    | WInstr.tagBind t _ => some t
    | _ => none)

theorem bindTags_tokensInstrs (toks : List (TokenType × List Char)) :
    bindTags (tokensInstrs toks) = [] := by
  induction toks with
  | nil => rfl
  | cons t rest ih =>
    simp only [bindTags, tokensInstrs, List.map_cons, List.filterMap_cons] at ih ⊢
    exact ih

theorem bindTags_append (a b : List WInstr) :
    bindTags (a ++ b) = bindTags a ++ bindTags b := by
  simp [bindTags]

theorem renderPara_tags : ∀ (fuel : Nat) (s : List Char) (pos : Nat) (st : RState),
    st.linkTable <+: (renderPara fuel s pos st).st.linkTable ∧
    bindTags (renderPara fuel s pos st).instrs =
      (List.range' st.linkTable.length
        ((renderPara fuel s pos st).st.linkTable.length - st.linkTable.length)).map
        hyperTag := by
  intro fuel
  induction fuel with
  | zero =>
    intro s pos st
    exact ⟨List.prefix_rfl, by simp [renderPara, bindTags_tokensInstrs]⟩
  | succ n ih =>
    intro s pos st
    cases hf : findFirstLink s with
    | none =>
      refine ⟨?_, ?_⟩
      · simp only [renderPara, hf]
        exact List.prefix_rfl
      · simp [renderPara, hf, bindTags_tokensInstrs]
    | some q =>
      obtain ⟨b, t, u, a⟩ := q
      have hr := ih a (pos + toksTextLen (tokenize_inline b) + t.length)
        { st with linkTable := st.linkTable ++ [u] }
      simp only [renderPara, hf]
      have hpre : st.linkTable <+:
          ({ st with linkTable := st.linkTable ++ [u] } : RState).linkTable :=
        List.prefix_append _ _
      refine ⟨hpre.trans hr.1, ?_⟩
      rw [bindTags_append, bindTags_tokensInstrs]
      simp only [bindTags, List.filterMap_cons, List.nil_append]
      have hlen : st.linkTable.length + 1 ≤
          (renderPara n a (pos + toksTextLen (tokenize_inline b) + t.length)
            { st with linkTable := st.linkTable ++ [u] }).st.linkTable.length := by
        have := hr.1.length_le
        simpa using this
      simp only [bindTags] at hr
      rw [hr.2]
      have hm : (renderPara n a (pos + toksTextLen (tokenize_inline b) + t.length)
            { st with linkTable := st.linkTable ++ [u] }).st.linkTable.length -
          st.linkTable.length =
          ((renderPara n a (pos + toksTextLen (tokenize_inline b) + t.length)
            { st with linkTable := st.linkTable ++ [u] }).st.linkTable.length -
          ({ st with linkTable := st.linkTable ++ [u] } : RState).linkTable.length) + 1 := by
        simp only [List.length_append, List.length_cons, List.length_nil]
        omega
      rw [hm, List.range'_succ]
      simp

theorem renderLines_tags (fs : FS) (base : List Char) :
    ∀ (lines : List (List Char)) (inCode : Bool) (pos : Nat) (st : RState),
    st.linkTable <+: (renderLines fs base lines inCode pos st).st.linkTable ∧
    bindTags (renderLines fs base lines inCode pos st).instrs =
      (List.range' st.linkTable.length
        ((renderLines fs base lines inCode pos st).st.linkTable.length -
          st.linkTable.length)).map hyperTag := by
  intro lines
  induction lines with
  | nil =>
    intro inCode pos st
    exact ⟨List.prefix_rfl, by simp [renderLines, bindTags]⟩
  | cons line rest ih =>
    intro inCode pos st
    cases hf : (cs "```").isPrefixOf (pstrip line) with
    | true =>
      have hr := ih (!inCode) (pos + 1) st
      simp only [renderLines, hf, if_true]
      refine ⟨hr.1, ?_⟩
      simpa [bindTags, List.filterMap_cons] using hr.2
    | false =>
      cases inCode with
      | true =>
        have hr := ih true (pos + line.length + 1) st
        simp only [renderLines, hf, Bool.false_eq_true, if_false, if_true]
        refine ⟨hr.1, ?_⟩
        simpa [bindTags, List.filterMap_cons] using hr.2
      | false =>
        cases him : imgMatch (pstrip line) with
        | some p =>
          simp only [renderLines, hf, him, Bool.false_eq_true, if_false]
          by_cases he : fs.pexists (resolveImagePath fs base p) = true
          · by_cases hph : fs.photoOk (resolveImagePath fs base p) = true
            · have hr := ih false (pos + 1 + 1)
                { st with imageCache := st.imageCache ++ [resolveImagePath fs base p] }
              simp only [he, hph, if_true]
              refine ⟨hr.1, ?_⟩
              simpa [bindTags, List.filterMap_cons] using hr.2
            · by_cases hpil : (fs.pilAvailable && fs.pilOk (resolveImagePath fs base p)) = true
              · have hr := ih false (pos + 1 + 1)
                  { st with imageCache := st.imageCache ++ [resolveImagePath fs base p] }
                simp only [he, hph, hpil, if_true, if_false, Bool.false_eq_true]
                refine ⟨hr.1, ?_⟩
                simpa [bindTags, List.filterMap_cons] using hr.2
              · have hr := ih false
                  (pos + (cs "[Unsupported image format: " ++ resolveImagePath fs base p ++
                    cs "]" ++ [nlc]).length + 1) st
                simp only [he, hph, hpil, if_true, if_false, Bool.false_eq_true]
                refine ⟨hr.1, ?_⟩
                simpa [bindTags, List.filterMap_cons] using hr.2
          · have hr := ih false
              (pos + (cs "[Image not found: " ++ resolveImagePath fs base p ++
                cs "]" ++ [nlc]).length + 1) st
            simp only [he, Bool.not_eq_true, if_false, Bool.false_eq_true]
            refine ⟨hr.1, ?_⟩
            simpa [bindTags, List.filterMap_cons] using hr.2
        | none =>
          cases hh1 : (cs "# ").isPrefixOf (pstrip line) with
          | true =>
            have hr := ih false (pos + ((pstrip line).drop 2 ++ [nlc]).length) st
            simp only [renderLines, hf, him, hh1, Bool.false_eq_true, if_false, if_true]
            refine ⟨hr.1, ?_⟩
            simpa [bindTags, List.filterMap_cons] using hr.2
          | false =>
            cases hh2 : (cs "## ").isPrefixOf (pstrip line) with
            | true =>
              have hr := ih false (pos + ((pstrip line).drop 3 ++ [nlc]).length) st
              simp only [renderLines, hf, him, hh1, hh2, Bool.false_eq_true, if_false,
                if_true]
              refine ⟨hr.1, ?_⟩
              simpa [bindTags, List.filterMap_cons] using hr.2
            | false =>
              cases hh3 : (cs "### ").isPrefixOf (pstrip line) with
              | true =>
                have hr := ih false (pos + ((pstrip line).drop 4 ++ [nlc]).length) st
                simp only [renderLines, hf, him, hh1, hh2, hh3, Bool.false_eq_true,
                  if_false, if_true]
                refine ⟨hr.1, ?_⟩
                simpa [bindTags, List.filterMap_cons] using hr.2
              | false =>
                have hp := renderPara_tags line.length line pos st
                have hl := ih false ((renderPara line.length line pos st).pos + 1)
                  (renderPara line.length line pos st).st
                simp only [renderLines, hf, him, hh1, hh2, hh3, Bool.false_eq_true,
                  if_false]
                refine ⟨hp.1.trans hl.1, ?_⟩
                rw [bindTags_append]
                have hcons : bindTags (WInstr.insert [nlc] [] ::
                    (renderLines fs base rest false
                      ((renderPara line.length line pos st).pos + 1)
                      (renderPara line.length line pos st).st).instrs) =
                    bindTags (renderLines fs base rest false
                      ((renderPara line.length line pos st).pos + 1)
                      (renderPara line.length line pos st).st).instrs := by
                  simp [bindTags, List.filterMap_cons]
                rw [hcons, hp.2, hl.2]
                have h1 : st.linkTable.length ≤
                    (renderPara line.length line pos st).st.linkTable.length :=
                  hp.1.length_le
                have h2 : (renderPara line.length line pos st).st.linkTable.length ≤
                    (renderLines fs base rest false
                      ((renderPara line.length line pos st).pos + 1)
                      (renderPara line.length line pos st).st).st.linkTable.length :=
                  hl.1.length_le
                rw [← List.map_append]
                congr 1
                have := List.range'_append_1 st.linkTable.length
                  ((renderPara line.length line pos st).st.linkTable.length -
                    st.linkTable.length)
                  ((renderLines fs base rest false
                      ((renderPara line.length line pos st).pos + 1)
                      (renderPara line.length line pos st).st).st.linkTable.length -
                    (renderPara line.length line pos st).st.linkTable.length)
                rw [show st.linkTable.length +
                    ((renderPara line.length line pos st).st.linkTable.length -
                      st.linkTable.length) =
                    (renderPara line.length line pos st).st.linkTable.length by omega] at this
                rw [this]
                congr 1
                omega

/-- C4 counterexample: in one application instance with two documents
`"[a](u)"` and `"[b](v)"`, the instruction sequence produced for the
second document differs from the one produced when the second document
is rendered in a fresh application state — the callback table written by
the first document's render is read by the second's, refuting the
claimed independence of per-document sessions. -/
theorem sessions_not_independent_cex :
    (appRenderDocs false raisingParse emptyFS (cs "/b")
        [cs "[a](u)", cs "[b](v)"] ⟨[], []⟩).1.getD 1 [] ≠
      (render_markdown false raisingParse emptyFS (cs "/b") (cs "[b](v)")
        ⟨[], []⟩).instrs := by
  decide

/-- C4 amended.  Documents opened in one application instance share
mutable rendering state: the module-global hyperlink-callback table (and
the single per-application image cache) is threaded through every
document's render, so in line-scanning mode the synthetic hyperlink tags
bound across all documents of one `load_markdown_files` pass form one
consecutive global sequence `hyperlink_k`, continuing across document
boundaries instead of restarting at `hyperlink_0` for each document; the
initial table is only ever extended, never reset. -/
theorem sessions_share_global_table (parse : List Char → Except Unit (List MNode))
    (fs : FS) (base : List Char) :
    ∀ (docs : List (List Char)) (st : RState),
    st.linkTable <+: (appRenderDocs false parse fs base docs st).2.linkTable ∧
    bindTags (appRenderDocs false parse fs base docs st).1.flatten =
      (List.range' st.linkTable.length
        ((appRenderDocs false parse fs base docs st).2.linkTable.length -
          st.linkTable.length)).map hyperTag := by
  intro docs
  induction docs with
  | nil =>
    intro st
    exact ⟨List.prefix_rfl, by simp [appRenderDocs, bindTags]⟩
  | cons d rest ih =>
    intro st
    have hd := renderLines_tags fs base (d.splitOn nlc) false 0 st
    have hr := ih (render_markdown false parse fs base d st).st
    simp only [appRenderDocs, List.flatten_cons]
    rw [bindTags_append]
    have hraw : render_markdown false parse fs base d st =
        renderLines fs base (d.splitOn nlc) false 0 st := by
      simp [render_markdown, render_markdown_raw]
    rw [hraw] at hr ⊢
    refine ⟨hd.1.trans hr.1, ?_⟩
    rw [hd.2, hr.2]
    have h1 : st.linkTable.length ≤
        (renderLines fs base (d.splitOn nlc) false 0 st).st.linkTable.length :=
      hd.1.length_le
    have h2 : (renderLines fs base (d.splitOn nlc) false 0 st).st.linkTable.length ≤
        (appRenderDocs false parse fs base rest
          (renderLines fs base (d.splitOn nlc) false 0 st).st).2.linkTable.length :=
      hr.1.length_le
    rw [← List.map_append]
    congr 1
    have := List.range'_append_1 st.linkTable.length
      ((renderLines fs base (d.splitOn nlc) false 0 st).st.linkTable.length -
        st.linkTable.length)
      ((appRenderDocs false parse fs base rest
          (renderLines fs base (d.splitOn nlc) false 0 st).st).2.linkTable.length -
        (renderLines fs base (d.splitOn nlc) false 0 st).st.linkTable.length)
    rw [show st.linkTable.length +
        ((renderLines fs base (d.splitOn nlc) false 0 st).st.linkTable.length -
          st.linkTable.length) =
        (renderLines fs base (d.splitOn nlc) false 0 st).st.linkTable.length by omega] at this
    rw [this]
    congr 1
    omega
